import Mathlib

/-!
Verification of the from-scratch tokenizer family in
`src/custom-tokenizer.js`: `CharacterTokenizer`, `WordTokenizer` and
`SimpleBPETokenizer`.

Modelling conventions, stated once:
* JavaScript strings are modelled as `List Char`, i.e. sequences of Unicode
  code points, the way `for...of` iterates them.
* Plain JavaScript objects (and `Map`s) used as dictionaries are modelled as
  insertion-ordered association lists over their own properties.  Where a
  looked-up key can collide with an `Object.prototype` property name (the
  word tokenizer's lower-cased units), the read models the prototype chain
  (`jsRead`) and the write models the inherited `__proto__` setter, which
  swallows non-object assignments (`objSetW`).  Single-character keys,
  two-character merge tokens, and the reserved token strings never collide
  with prototype property names, so plain own-property access is exact for
  the character and BPE tokenizers.
* Numbers that the code uses as token ids are modelled as `Nat`; a possibly
  `undefined` number is `Option Nat`.
* The literal-replacement model of `String.prototype.replace` with a global
  regex is exact whenever the pattern contains no regex metacharacters, which
  holds for every corpus considered in the theorems below; the separate
  `Checked` build models the `new RegExp` syntax error on malformed patterns.
-/

namespace Tok

/-- Own-property read of a JS object used as a dictionary: `m[k]`, with
`undefined` becoming `none`. -/
def objGet {κ ν : Type} [BEq κ] (m : List (κ × ν)) (k : κ) : Option ν :=
  (m.find? (fun p => p.1 == k)).map (fun p => p.2)

/-- Own-property write `m[k] = v`: an existing key keeps its position and
receives the new value, a new key is appended (JS insertion order). -/
def objSet {κ ν : Type} [BEq κ] (m : List (κ × ν)) (k : κ) (v : ν) : List (κ × ν) :=
  if m.any (fun p => p.1 == k) then m.map (fun p => if p.1 == k then (k, v) else p)
  else m ++ [(k, v)]

/-- `Object.fromEntries`: entries are inserted in order, later entries
overwriting the value stored for an equal earlier key. -/
def jsFromEntries {κ ν : Type} [BEq κ] (l : List (κ × ν)) : List (κ × ν) :=
  l.foldl (fun acc p => objSet acc p.1 p.2) []

/-- JS `a || b` on number-or-undefined values (`0` and `undefined` falsy). -/
def jsOr (a b : Option Nat) : Option Nat :=
  match a with
  | some n => if n = 0 then b else some n
  | none => b

/-- JS `a || b` where `a` is a string-or-undefined value (`""` and
`undefined` falsy) and `b` a string. -/
def jsOrStr (a : Option (List Char)) (b : List Char) : List Char :=
  match a with
  | some s => if s = [] then b else s
  | none => b

/-- JS `a || 0`, as in `this.vocab[char] || 0` of `SimpleBPETokenizer.encode`. -/
def jsOrZero (a : Option Nat) : Nat :=
  match a with
  | some n => if n = 0 then 0 else n
  | none => 0

def padTok : List Char := "<PAD>".toList

def unkTok : List Char := "<UNK>".toList

def startTok : List Char := "<START>".toList

def endTok : List Char := "<END>".toList

/-- The four reserved entries, in the order every `buildVocabulary` writes
them. -/
def specialsList : List (List Char × Nat) :=
  [(padTok, 0), (unkTok, 1), (startTok, 2), (endTok, 3)]

/-- `this.vocab['<PAD>'] = 0; ...; this.vocab['<END>'] = 3`, performed on the
current (never cleared) vocabulary object. -/
def addSpecials (m : List (List Char × Nat)) : List (List Char × Nat) :=
  objSet (objSet (objSet (objSet m padTok 0) unkTok 1) startTok 2) endTok 3

/-- Iteration order of a JS `Set` that is filled by repeated `add` calls:
first-seen order, duplicates ignored. -/
def dedupFirst (l : List Char) : List Char :=
  l.foldl (fun acc c => if acc.contains c then acc else acc ++ [c]) []

/-- `forEach` with a running index variable: assign increasing ids to the
listed keys, starting at `i`. -/
def assignFrom (m : List (List Char × Nat)) (i : Nat) :
    List (List Char) → List (List Char × Nat) × Nat
  | [] => (m, i)
  | t :: ts => assignFrom (objSet m t i) (i + 1) ts

/-- Closed form of fresh-key id assignment: `(t₀, i), (t₁, i+1), ...`. -/
def idxFrom (i : Nat) : List (List Char) → List (List Char × Nat)
  | [] => []
  | t :: ts => (t, i) :: idxFrom (i + 1) ts

structure CharacterTokenizer where
  vocab : List (List Char × Nat)
  reverseVocab : List (Nat × List Char)
  vocabSize : Nat

/-- `CharacterTokenizer.buildVocabulary(texts)`: collect the distinct code
points of the corpus in first-seen order, write the four reserved tokens,
then ids from 4 on, and rebuild the reverse mapping. -/
def CharacterTokenizer.buildVocabulary (self : CharacterTokenizer)
    (texts : List (List Char)) : CharacterTokenizer :=
  let uniqueChars := dedupFirst texts.flatten
  let v := (assignFrom (addSpecials self.vocab) 4 (uniqueChars.map (fun c => [c]))).1
  { vocab := v
    reverseVocab := jsFromEntries (v.map (fun p => (p.2, p.1)))
    vocabSize := v.length }

/-- `CharacterTokenizer.encode`: `this.vocab[char] || this.vocab['<UNK>']`
per code point. -/
def CharacterTokenizer.encode (self : CharacterTokenizer) (text : List Char) :
    List (Option Nat) :=
  text.map (fun c => jsOr (objGet self.vocab [c]) (objGet self.vocab unkTok))

/-- `CharacterTokenizer.decode`: `this.reverseVocab[token] || '<UNK>'`,
joined with no separator. -/
def CharacterTokenizer.decode (self : CharacterTokenizer)
    (tokens : List (Option Nat)) : List Char :=
  (tokens.map (fun t =>
    match t with
    | some n => jsOrStr (objGet self.reverseVocab n) unkTok
    | none => unkTok)).flatten

/-- JS `\w`, an ASCII word character. -/
def isWordChar (c : Char) : Bool := c.isAlphanum || c = '_'

/-- JS `\s` restricted to the whitespace characters relevant here. -/
def isJsSpace (c : Char) : Bool :=
  c = ' ' || c = '\t' || c = '\n' || c = '\r' || c = '\x0b' || c = '\x0c'

/-- `String.prototype.toLowerCase`, ASCII fragment (the corpus and inputs
considered are ASCII; full Unicode case mapping is not modelled). -/
def jsToLower (c : Char) : Char :=
  if 65 ≤ c.toNat ∧ c.toNat ≤ 90 then Char.ofNat (c.toNat + 32) else c

def lowerL (s : List Char) : List Char := s.map jsToLower

/-- `text.match(/\w+|[^\w\s]/g) || []`: maximal runs of word characters, or
single non-word non-space characters; whitespace is dropped. -/
def wordUnitsAux : List Char → List Char → List (List Char)
  | [], cur => if cur = [] then [] else [cur.reverse]
  | c :: rest, cur =>
    if isWordChar c then wordUnitsAux rest (c :: cur)
    else
      (if cur = [] then [] else [cur.reverse]) ++
        (if isJsSpace c then wordUnitsAux rest []
         else [c] :: wordUnitsAux rest [])

/-- `text.match(/\w+|[^\w\s]/g) || []` as a left-to-right scan: maximal runs
of word characters, or single non-word non-space characters; whitespace is
dropped.  `wordUnitsAux` carries the reversed run currently being read. -/
def wordUnits (s : List Char) : List (List Char) :=
  wordUnitsAux s []

/-- The own property names of `Object.prototype` (including the Annex B
accessors): a plain-object read of one of these keys that is not an own
property yields the inherited (truthy) value instead of `undefined`. -/
def protoKeys : List (List Char) :=
  ["constructor".toList, "hasOwnProperty".toList, "isPrototypeOf".toList,
   "propertyIsEnumerable".toList, "toLocaleString".toList, "toString".toList,
   "valueOf".toList, "__defineGetter__".toList, "__defineSetter__".toList,
   "__lookupGetter__".toList, "__lookupSetter__".toList, "__proto__".toList]

/-- A value read from a plain JS object used as a number dictionary: an own
numeric property, a value inherited from `Object.prototype` (a function, or
the prototype object itself for `__proto__`), or `undefined`. -/
inductive JsVal where
  | num : Nat → JsVal
  | inherited : List Char → JsVal
  | undef : JsVal
deriving DecidableEq

/-- JS truthiness of a read value: inherited prototype values (functions,
objects) are truthy; the number `0` and `undefined` are falsy. -/
def JsVal.truthy : JsVal → Bool
  | JsVal.num n => n != 0
  | JsVal.inherited _ => true
  | JsVal.undef => false

/-- Full JS property read `m[k]` on a plain object: the own property if one
exists, otherwise the `Object.prototype` chain, otherwise `undefined`. -/
def jsRead (m : List (List Char × Nat)) (k : List Char) : JsVal :=
  match objGet m k with
  | some n => JsVal.num n
  | none => if k ∈ protoKeys then JsVal.inherited k else JsVal.undef

/-- JS `a || b` on read values. -/
def jsOrVal (a b : JsVal) : JsVal := if a.truthy then a else b

/-- Plain-object property assignment `m[k] = v` for a number value `v`:
assigning to `"__proto__"` invokes the inherited accessor's setter, which
ignores non-object values, so that key never becomes an own property; every
other key is stored normally (inherited data properties such as
`"constructor"` do not block assignment). -/
def objSetW (m : List (List Char × Nat)) (k : List Char) (v : Nat) :
    List (List Char × Nat) :=
  if k = "__proto__".toList then m else objSet m k v

/-- Word-frequency counting over the lower-cased corpus:
`wordFrequency[word] = (wordFrequency[word] || 0) + 1`.  The write is
`objSetW`: an occurrence of the unit `"__proto__"` is swallowed by the
inherited setter and never becomes an own key (so it can never reach the
vocabulary either).  For the unit `"constructor"` the JS read starts from
the inherited function, so the stored count is a string built from an
implementation-defined `Function.prototype.toString` rendering; its only
effect is on the (then implementation-defined) comparator order of the
frequency sort.  The model stores the occurrence count; no theorem below
depends on the order of the frequency table, and the key set is identical. -/
def countUnits (texts : List (List Char)) : List (List Char × Nat) :=
  ((texts.map (fun t => wordUnits (lowerL t))).flatten).foldl
    (fun acc w => objSetW acc w ((objGet acc w).getD 0 + 1)) []

/-- Stable insertion, descending by count, used by `sortFreqDesc`. -/
def insertDesc (x : List Char × Nat) : List (List Char × Nat) → List (List Char × Nat)
  | [] => [x]
  | y :: ys => if y.2 < x.2 then x :: y :: ys else y :: insertDesc x ys

/-- `entries.sort((a, b) => b[1] - a[1])`: stable sort, descending by count
(ties keep insertion order). -/
def sortFreqDesc (l : List (List Char × Nat)) : List (List Char × Nat) :=
  l.foldl (fun acc x => insertDesc x acc) []

/-- `Array.prototype.slice(0, e)` with a possibly negative end index. -/
def jsSliceTo {α : Type} (l : List α) (e : Int) : List α :=
  l.take (if 0 ≤ e then e.toNat else l.length - (-e).toNat)

structure WordTokenizer where
  maxVocabSize : Nat
  vocab : List (List Char × Nat)
  reverseVocab : List (Nat × List Char)
  vocabSize : Nat

/-- `WordTokenizer.buildVocabulary(texts)`: frequency-count the word units of
the lower-cased corpus, sort by descending frequency, keep at most
`maxVocabSize - 4` entries, then assign ids after the reserved tokens. -/
def WordTokenizer.buildVocabulary (self : WordTokenizer)
    (texts : List (List Char)) : WordTokenizer :=
  let sortedWords :=
    jsSliceTo (sortFreqDesc (countUnits texts)) ((self.maxVocabSize : Int) - 4)
  let v := (assignFrom (addSpecials self.vocab) 4 (sortedWords.map (fun p => p.1))).1
  { self with
      vocab := v
      reverseVocab := jsFromEntries (v.map (fun p => (p.2, p.1)))
      vocabSize := v.length }

/-- `WordTokenizer.encode`: segment the lower-cased input, then
`this.vocab[word] || this.vocab['<UNK>']`.  The lookup walks the prototype
chain: a unit such as `"constructor"` that is not an own key of the
vocabulary reads the inherited truthy `Object.prototype` value, which the
`||` then emits unchanged instead of the `UNK` id. -/
def WordTokenizer.encode (self : WordTokenizer) (text : List Char) :
    List JsVal :=
  (wordUnits (lowerL text)).map
    (fun w => jsOrVal (jsRead self.vocab w) (jsRead self.vocab unkTok))

/-- `WordTokenizer.decode`: `this.reverseVocab[token] || '<UNK>'`, joined
with single spaces. -/
def WordTokenizer.decode (self : WordTokenizer) (tokens : List (Option Nat)) :
    List Char :=
  ((tokens.map (fun t =>
    match t with
    | some n => jsOrStr (objGet self.reverseVocab n) unkTok
    | none => unkTok)).intersperse [' ']).flatten

/-- `text.split(/\s+/).filter(w => w.length > 0)`: the maximal runs of
non-whitespace characters. -/
def splitWsAux : List Char → List Char → List (List Char)
  | [], cur => if cur = [] then [] else [cur.reverse]
  | c :: rest, cur =>
    if isJsSpace c then (if cur = [] then [] else [cur.reverse]) ++ splitWsAux rest []
    else splitWsAux rest (c :: cur)

/-- `text.split(/\s+/).filter(w => w.length > 0)` as a left-to-right scan:
the maximal runs of non-whitespace characters.  `splitWsAux` carries the
reversed run currently being read. -/
def splitWs (s : List Char) : List (List Char) :=
  splitWsAux s []

def adjPairs (w : List Char) : List (Char × Char) := w.zip w.tail

/-- `getPairFrequencies`: count adjacent character pairs over all words;
`Map` iteration order is insertion order. -/
def getPairFrequencies (words : List (List Char)) : List ((Char × Char) × Nat) :=
  words.foldl
    (fun acc w =>
      (adjPairs w).foldl (fun m p => objSet m p ((objGet m p).getD 0 + 1)) acc)
    []

/-- `[...pairs.entries()].sort((a, b) => b[1] - a[1])[0]`: the first pair
attaining the maximal count (the sort is stable, so ties are broken by
insertion order). -/
def argmaxFirst : List ((Char × Char) × Nat) → Option ((Char × Char) × Nat)
  | [] => none
  | x :: xs => some (xs.foldl (fun b p => if b.2 < p.2 then p else b) x)

/-- Strip `pat` from the front of `s`: `some` remainder on a literal match. -/
def stripStart : List Char → List Char → Option (List Char)
  | [], s => some s
  | _ :: _, [] => none
  | p :: ps, c :: cs => if p == c then stripStart ps cs else none

/-- Worker for `replaceAllL`; the fuel bounds the number of scanning steps
(every step consumes at least one input character when the pattern is
nonempty). -/
def replaceAllGo (pat rep : List Char) : Nat → List Char → List Char
  | 0, s => s
  | Nat.succ _, [] => []
  | Nat.succ f, c :: rest =>
    if pat = [] then c :: rest
    else
      match stripStart pat (c :: rest) with
      | some rem => rep ++ replaceAllGo pat rep f rem
      | none => c :: replaceAllGo pat rep f rest

/-- `s.replace(new RegExp(pat, 'g'), rep)` for a pattern free of regex
metacharacters: leftmost, non-overlapping, global literal replacement.
(The patterns built by the merge loop are never empty.) -/
def replaceAllL (pat rep : List Char) (s : List Char) : List Char :=
  replaceAllGo pat rep s.length s

structure BpeSt where
  vocab : List (List Char × Nat)
  idx : Nat
  merges : List ((Char × Char) × List Char)

/-- The merge-learning loop of `SimpleBPETokenizer.buildVocabulary`: pick the
most frequent adjacent pair, record the merged token and the merge rule, and
apply the merge to every word. -/
def bpeLoop : Nat → List (List Char) → BpeSt → BpeSt
  | 0, _, st => st
  | Nat.succ n, words, st =>
    match argmaxFirst (getPairFrequencies words) with
    | none => st
    | some pr =>
      let newToken : List Char := [pr.1.1, pr.1.2]
      bpeLoop n (words.map (fun w => replaceAllL newToken newToken w))
        { vocab := objSet st.vocab newToken st.idx
          idx := st.idx + 1
          merges := objSet st.merges (pr.1.1, pr.1.2) newToken }

structure SimpleBPETokenizer where
  numMerges : Nat
  vocab : List (List Char × Nat)
  merges : List ((Char × Char) × List Char)
  reverseVocab : List (Nat × List Char)

/-- `SimpleBPETokenizer.buildVocabulary(texts)`: split on whitespace, seed
the (never cleared) vocabulary with the distinct characters from id 0 on,
then run the merge loop and rebuild the reverse mapping.  No reserved tokens
are written by this class. -/
def SimpleBPETokenizer.buildVocabulary (self : SimpleBPETokenizer)
    (texts : List (List Char)) : SimpleBPETokenizer :=
  let words := (texts.map splitWs).flatten
  let chars := dedupFirst words.flatten
  let seeded := assignFrom self.vocab 0 (chars.map (fun c => [c]))
  let st := bpeLoop self.numMerges words
    { vocab := seeded.1, idx := seeded.2, merges := self.merges }
  { self with
      vocab := st.vocab
      merges := st.merges
      reverseVocab := jsFromEntries (st.vocab.map (fun p => (p.2, p.1))) }

/-- `SimpleBPETokenizer.encode`: apply every learned merge as a global
replacement over the whole input, then map each remaining code point through
`this.vocab[char] || 0`. -/
def SimpleBPETokenizer.encode (self : SimpleBPETokenizer) (text : List Char) :
    List Nat :=
  let result := self.merges.foldl (fun r m => replaceAllL [m.1.1, m.1.2] m.2 r) text
  result.map (fun c => jsOrZero (objGet self.vocab [c]))

/-- `SimpleBPETokenizer.decode`: `this.reverseVocab[token] || '?'`, joined
with no separator. -/
def SimpleBPETokenizer.decode (self : SimpleBPETokenizer) (tokens : List Nat) :
    List Char :=
  (tokens.map (fun t => jsOrStr (objGet self.reverseVocab t) ['?'])).flatten

/-- Modelled fragment of the syntax check done by `new RegExp(pattern)`:
a pattern with unbalanced groups or a trailing backslash is rejected
(a `SyntaxError` is thrown).  `d` is the current group-nesting depth. -/
def regexScan (d : Nat) (s : List Char) : Bool :=
  match s with
  | [] => d == 0
  | c :: rest =>
    if c = '\\' then
      match rest with
      | [] => false
      | _ :: rest2 => regexScan d rest2
    else if c = '(' then regexScan (d + 1) rest
    else if c = ')' then
      match d with
      | 0 => false
      | Nat.succ d2 => regexScan d2 rest
    else regexScan d rest

def jsRegexAccepts (pat : List Char) : Bool := regexScan 0 pat

/-- `bpeLoop` with the `new RegExp(first + second, 'g')` construction of the
merge-application step modelled: a malformed pattern is thrown (returned in
`Except.error`), after the vocabulary and merge entries were already written,
exactly as in the source. -/
def bpeLoopChecked : Nat → List (List Char) → BpeSt → Except (List Char) BpeSt
  | 0, _, st => Except.ok st
  | Nat.succ n, words, st =>
    match argmaxFirst (getPairFrequencies words) with
    | none => Except.ok st
    | some pr =>
      let newToken : List Char := [pr.1.1, pr.1.2]
      let st2 : BpeSt :=
        { vocab := objSet st.vocab newToken st.idx
          idx := st.idx + 1
          merges := objSet st.merges (pr.1.1, pr.1.2) newToken }
      if jsRegexAccepts newToken then
        bpeLoopChecked n (words.map (fun w => replaceAllL newToken newToken w)) st2
      else Except.error newToken

/-- `SimpleBPETokenizer.buildVocabulary` with the `RegExp` syntax error
modelled: `Except.error pat` is the thrown `SyntaxError` for pattern `pat`. -/
def SimpleBPETokenizer.buildVocabularyChecked (self : SimpleBPETokenizer)
    (texts : List (List Char)) : Except (List Char) SimpleBPETokenizer :=
  let words := (texts.map splitWs).flatten
  let chars := dedupFirst words.flatten
  let seeded := assignFrom self.vocab 0 (chars.map (fun c => [c]))
  match bpeLoopChecked self.numMerges words
    { vocab := seeded.1, idx := seeded.2, merges := self.merges } with
  | Except.error pat => Except.error pat
  | Except.ok st =>
      Except.ok
        { self with
            vocab := st.vocab
            merges := st.merges
            reverseVocab := jsFromEntries (st.vocab.map (fun p => (p.2, p.1))) }

/-- A `new CharacterTokenizer()` followed by `buildVocabulary(texts)`. -/
def charB (texts : List (List Char)) : CharacterTokenizer :=
  CharacterTokenizer.buildVocabulary
    { vocab := [], reverseVocab := [], vocabSize := 0 } texts

/-- A `new WordTokenizer(m)` followed by `buildVocabulary(texts)`. -/
def wordB (m : Nat) (texts : List (List Char)) : WordTokenizer :=
  WordTokenizer.buildVocabulary
    { maxVocabSize := m, vocab := [], reverseVocab := [], vocabSize := 0 } texts

/-- A `new SimpleBPETokenizer(n)` followed by `buildVocabulary(texts)`. -/
def bpeB (texts : List (List Char)) (n : Nat) : SimpleBPETokenizer :=
  SimpleBPETokenizer.buildVocabulary
    { numMerges := n, vocab := [], merges := [], reverseVocab := [] } texts

/-- The checked build of a fresh `SimpleBPETokenizer`. -/
def bpeBChecked (texts : List (List Char)) (n : Nat) :
    Except (List Char) SimpleBPETokenizer :=
  SimpleBPETokenizer.buildVocabularyChecked
    { numMerges := n, vocab := [], merges := [], reverseVocab := [] } texts

/-- A token distinct from the four reserved token strings. -/
def NotSpecial (t : List Char) : Prop :=
  t ≠ padTok ∧ t ≠ unkTok ∧ t ≠ startTok ∧ t ≠ endTok

/-- The vocabulary invariant claimed by the spec: the token-to-id mapping is
injective, the reverse mapping is its exact inverse, ids are contiguous from
0, and reserved ids 0–3 belong only to the four reserved tokens. -/
def VocabWF (v : List (List Char × Nat)) (rv : List (Nat × List Char)) : Prop :=
  (∀ t1 t2 i, objGet v t1 = some i → objGet v t2 = some i → t1 = t2) ∧
  (∀ t i, objGet v t = some i ↔ objGet rv i = some t) ∧
  (v.map Prod.snd = List.range v.length) ∧
  (∀ t i, objGet v t = some i → i < 4 →
    t = padTok ∨ t = unkTok ∨ t = startTok ∨ t = endTok)


/-! ### Association-list lemmas -/

theorem objGet_nil {κ ν : Type} [BEq κ] (k : κ) :
    objGet ([] : List (κ × ν)) k = none := rfl

theorem objGet_cons {κ ν : Type} [BEq κ] [LawfulBEq κ] [DecidableEq κ]
    (p : κ × ν) (m : List (κ × ν)) (k : κ) :
    objGet (p :: m) k = if p.1 = k then some p.2 else objGet m k := by
  by_cases h : p.1 = k
  · simp [objGet, h]
  · simp [objGet, h]

theorem objGet_append {κ ν : Type} [BEq κ] (a b : List (κ × ν)) (k : κ) :
    objGet (a ++ b) k = (objGet a k).or (objGet b k) := by
  simp only [objGet, List.find?_append]
  cases a.find? (fun p => p.1 == k) <;> simp

theorem objSet_nil {κ ν : Type} [BEq κ] (k : κ) (v : ν) :
    objSet ([] : List (κ × ν)) k v = [(k, v)] := by
  simp [objSet]

theorem objSet_cons_ne {κ ν : Type} [BEq κ] [LawfulBEq κ] {p : κ × ν}
    {k : κ} (m : List (κ × ν)) (v : ν) (h : p.1 ≠ k) :
    objSet (p :: m) k v = p :: objSet m k v := by
  by_cases ha : m.any (fun q => q.1 == k) = true
  · have : (p :: m).any (fun q => q.1 == k) = true := by
      simp only [List.any_cons, ha, Bool.or_true]
    simp only [objSet, this, ha, if_true, List.map_cons]
    rw [if_neg (by simpa using h)]
  · have : (p :: m).any (fun q => q.1 == k) = false := by
      simp only [List.any_cons, Bool.or_eq_false_iff]
      exact ⟨by simpa using h, Bool.eq_false_iff.mpr ha⟩
    simp only [objSet, this, Bool.false_eq_true, if_false, List.cons_append]
    rw [if_neg (by simpa using ha)]

theorem mapUpd_of_fresh {κ ν : Type} [DecidableEq κ] {m : List (κ × ν)}
    {k : κ} (v : ν) (h : ∀ p ∈ m, p.1 ≠ k) :
    (m.map (fun q => if q.1 = k then (k, v) else q)) = m := by
  induction m with
  | nil => rfl
  | cons p m ih =>
    simp only [List.map_cons]
    rw [if_neg (h p (List.mem_cons_self p m)), ih (fun q hq => h q (List.mem_cons_of_mem p hq))]

theorem objSet_cons_eq {κ ν : Type} [BEq κ] [LawfulBEq κ] [DecidableEq κ]
    {p : κ × ν} {k : κ} (m : List (κ × ν)) (v : ν) (h : p.1 = k) :
    objSet (p :: m) k v =
      (k, v) :: m.map (fun q => if q.1 = k then (k, v) else q) := by
  have : (p :: m).any (fun q => q.1 == k) = true := by
    simp only [List.any_cons, Bool.or_eq_true, beq_iff_eq]
    exact Or.inl h
  simp only [objSet, this, if_true, List.map_cons]
  rw [if_pos (by simpa using h)]
  refine congrArg (fun l => (k, v) :: l) ?_
  refine List.map_congr_left (fun q _ => ?_)
  by_cases hq : q.1 = k
  · rw [if_pos (by simpa using hq), if_pos hq]
  · rw [if_neg (by simpa using hq), if_neg hq]

theorem objSet_of_fresh {κ ν : Type} [BEq κ] [LawfulBEq κ]
    {m : List (κ × ν)} {k : κ} (v : ν) (h : ∀ p ∈ m, p.1 ≠ k) :
    objSet m k v = m ++ [(k, v)] := by
  have : m.any (fun p => p.1 == k) = false := by
    simp only [List.any_eq_false, beq_iff_eq]
    exact h
  simp [objSet, this]

theorem objGet_mapUpd_ne {κ ν : Type} [BEq κ] [LawfulBEq κ] [DecidableEq κ]
    (m : List (κ × ν)) {k k2 : κ} (v : ν) (h : k2 ≠ k) :
    objGet (m.map (fun q => if q.1 = k then (k, v) else q)) k2 = objGet m k2 := by
  induction m with
  | nil => rfl
  | cons p m ih =>
    simp only [List.map_cons]
    by_cases hp : p.1 = k
    · rw [if_pos hp, objGet_cons, objGet_cons, if_neg (fun he => h he.symm),
        if_neg (fun he => h (hp ▸ he).symm), ih]
    · rw [if_neg hp, objGet_cons, objGet_cons, ih]

theorem objGet_objSet_self {κ ν : Type} [BEq κ] [LawfulBEq κ] [DecidableEq κ]
    (m : List (κ × ν)) (k : κ) (v : ν) :
    objGet (objSet m k v) k = some v := by
  induction m with
  | nil => rw [objSet_nil, objGet_cons, if_pos rfl]
  | cons p m ih =>
    by_cases hp : p.1 = k
    · rw [objSet_cons_eq m v hp, objGet_cons, if_pos rfl]
    · rw [objSet_cons_ne m v hp, objGet_cons, if_neg hp, ih]

theorem objGet_objSet_ne {κ ν : Type} [BEq κ] [LawfulBEq κ] [DecidableEq κ]
    (m : List (κ × ν)) {k k2 : κ} (v : ν) (h : k2 ≠ k) :
    objGet (objSet m k v) k2 = objGet m k2 := by
  induction m with
  | nil => rw [objSet_nil, objGet_cons, objGet_nil, if_neg (fun he => h he.symm)]
  | cons p m ih =>
    by_cases hp : p.1 = k
    · rw [objSet_cons_eq m v hp, objGet_cons, if_neg (fun he => h he.symm),
        objGet_cons, if_neg (fun he => h (hp ▸ he).symm), objGet_mapUpd_ne m v h]
    · rw [objSet_cons_ne m v hp, objGet_cons, objGet_cons, ih]

theorem objGet_mem {κ ν : Type} [BEq κ] [LawfulBEq κ] [DecidableEq κ]
    {m : List (κ × ν)} {k : κ} {v : ν} (h : objGet m k = some v) : (k, v) ∈ m := by
  induction m with
  | nil => simp [objGet] at h
  | cons p m ih =>
    rw [objGet_cons] at h
    by_cases hk : p.1 = k
    · rw [if_pos hk] at h
      have hv : p.2 = v := by simpa using h
      have hpe : p = (k, v) := by
        obtain ⟨a, b⟩ := p
        simp only at hk hv
        rw [hk, hv]
      rw [← hpe]
      exact List.mem_cons_self p m
    · rw [if_neg hk] at h
      exact List.mem_cons_of_mem _ (ih h)

theorem objGet_eq_none_iff {κ ν : Type} [BEq κ] [LawfulBEq κ]
    (m : List (κ × ν)) (k : κ) :
    objGet m k = none ↔ ∀ p ∈ m, p.1 ≠ k := by
  simp [objGet, List.find?_eq_none]

theorem objGet_of_mem {κ ν : Type} [BEq κ] [LawfulBEq κ] [DecidableEq κ]
    {m : List (κ × ν)} {k : κ} {v : ν} (hn : (m.map Prod.fst).Nodup)
    (h : (k, v) ∈ m) : objGet m k = some v := by
  induction m with
  | nil => simp at h
  | cons p m ih =>
    simp only [List.map_cons, List.nodup_cons, List.mem_map] at hn
    rw [objGet_cons]
    rcases List.mem_cons.1 h with h1 | h1
    · rw [← h1]
      simp
    · have hpk : p.1 ≠ k := by
        intro he
        exact hn.1 ⟨(k, v), h1, he ▸ rfl⟩
      rw [if_neg hpk]
      exact ih hn.2 h1

theorem mem_objSet {κ ν : Type} [BEq κ] [LawfulBEq κ] [DecidableEq κ]
    {m : List (κ × ν)} {k : κ} {v : ν} {p : κ × ν} (h : p ∈ objSet m k v) :
    p ∈ m ∨ p = (k, v) := by
  induction m with
  | nil =>
    rw [objSet_nil] at h
    exact Or.inr (by simpa using h)
  | cons q m ih =>
    by_cases hq : q.1 = k
    · rw [objSet_cons_eq m v hq] at h
      rcases List.mem_cons.1 h with h1 | h1
      · exact Or.inr h1
      · rcases List.mem_map.1 h1 with ⟨r, hr, he⟩
        by_cases hrk : r.1 = k
        · rw [if_pos hrk] at he
          exact Or.inr he.symm
        · rw [if_neg hrk] at he
          exact Or.inl (List.mem_cons_of_mem _ (he ▸ hr))
    · rw [objSet_cons_ne m v hq] at h
      rcases List.mem_cons.1 h with h1 | h1
      · exact Or.inl (h1 ▸ List.mem_cons_self q m)
      · rcases ih h1 with h2 | h2
        · exact Or.inl (List.mem_cons_of_mem _ h2)
        · exact Or.inr h2

theorem isSome_objGet_objSet {κ ν : Type} [BEq κ] [LawfulBEq κ] [DecidableEq κ]
    (m : List (κ × ν)) (k k2 : κ) (v : ν)
    (h : (objGet m k2).isSome = true) : (objGet (objSet m k v) k2).isSome = true := by
  by_cases he : k2 = k
  · rw [he, objGet_objSet_self]
    rfl
  · rw [objGet_objSet_ne m v he]
    exact h

theorem keys_objSet_nodup {κ ν : Type} [BEq κ] [LawfulBEq κ] [DecidableEq κ]
    {m : List (κ × ν)} (k : κ) (v : ν) (hn : (m.map Prod.fst).Nodup) :
    ((objSet m k v).map Prod.fst).Nodup := by
  by_cases ha : ∀ p ∈ m, p.1 ≠ k
  · rw [objSet_of_fresh v ha]
    simp only [List.map_append, List.map_cons, List.map_nil]
    rw [List.nodup_append]
    refine ⟨hn, List.nodup_singleton k, ?_⟩
    intro a ha2 hb
    rcases List.mem_map.1 ha2 with ⟨p, hp, he⟩
    have hb2 : a = k := by simpa using hb
    exact ha p hp (he.trans hb2)
  · push_neg at ha
    rcases ha with ⟨p, hp, he⟩
    suffices hkeys : (objSet m k v).map Prod.fst = m.map Prod.fst by
      rw [hkeys]
      exact hn
    have hany : m.any (fun q => q.1 == k) = true := by
      rw [List.any_eq_true]
      exact ⟨p, hp, by simpa using he⟩
    simp only [objSet, hany, if_true, List.map_map]
    refine List.map_congr_left (fun q _ => ?_)
    by_cases hq : q.1 = k
    · simp [hq]
    · simp [hq]

/-! ### Id-assignment and deduplication lemmas -/

theorem assignFrom_closed (ts : List (List Char)) :
    ∀ (m : List (List Char × Nat)) (i : Nat),
      (∀ t ∈ ts, ∀ p ∈ m, p.1 ≠ t) → ts.Nodup →
      (assignFrom m i ts).1 = m ++ idxFrom i ts := by
  induction ts with
  | nil => intro m i _ _; simp [assignFrom, idxFrom]
  | cons t ts ih =>
    intro m i hfresh hnd
    have hset : objSet m t i = m ++ [(t, i)] :=
      objSet_of_fresh i (fun p hp => hfresh t (List.mem_cons_self t ts) p hp)
    have hnd2 : ts.Nodup := (List.nodup_cons.1 hnd).2
    have htn : t ∉ ts := (List.nodup_cons.1 hnd).1
    have hfresh2 : ∀ u ∈ ts, ∀ p ∈ m ++ [(t, i)], p.1 ≠ u := by
      intro u hu p hp
      rcases List.mem_append.1 hp with h1 | h1
      · exact hfresh u (List.mem_cons_of_mem t hu) p h1
      · have : p = (t, i) := by simpa using h1
        rw [this]
        intro he
        simp only at he
        rw [he] at htn
        exact htn hu
    calc (assignFrom m i (t :: ts)).1
        = (assignFrom (objSet m t i) (i + 1) ts).1 := rfl
      _ = objSet m t i ++ idxFrom (i + 1) ts := by
            rw [hset] at *
            exact ih (m ++ [(t, i)]) (i + 1) hfresh2 hnd2
      _ = m ++ idxFrom i (t :: ts) := by
            rw [hset, List.append_assoc]
            rfl

theorem mem_idxFrom {p : List Char × Nat} :
    ∀ (ts : List (List Char)) (i : Nat), p ∈ idxFrom i ts →
      p.1 ∈ ts ∧ i ≤ p.2 ∧ p.2 < i + ts.length := by
  intro ts
  induction ts with
  | nil => intro i h; simp [idxFrom] at h
  | cons t ts ih =>
    intro i h
    rcases List.mem_cons.1 h with h1 | h1
    · rw [h1]
      refine ⟨List.mem_cons_self t ts, Nat.le_refl i, ?_⟩
      simp only [List.length_cons]
      omega
    · rcases ih (i + 1) h1 with ⟨ha, hb, hc⟩
      refine ⟨List.mem_cons_of_mem t ha, by omega, ?_⟩
      simp only [List.length_cons]
      omega

theorem idxFrom_map_fst : ∀ (ts : List (List Char)) (i : Nat),
    (idxFrom i ts).map Prod.fst = ts := by
  intro ts
  induction ts with
  | nil => intro i; rfl
  | cons t ts ih => intro i; simp only [idxFrom, List.map_cons, ih]

theorem idxFrom_map_snd : ∀ (ts : List (List Char)) (i : Nat),
    (idxFrom i ts).map Prod.snd = List.range' i ts.length := by
  intro ts
  induction ts with
  | nil => intro i; rfl
  | cons t ts ih =>
    intro i
    simp only [idxFrom, List.map_cons, List.length_cons, List.range'_succ, ih]

theorem isSome_assignFrom (ts : List (List Char)) :
    ∀ (m : List (List Char × Nat)) (i : Nat) (k : List Char),
      (objGet m k).isSome = true → (objGet (assignFrom m i ts).1 k).isSome = true := by
  induction ts with
  | nil => intro m i k h; exact h
  | cons t ts ih =>
    intro m i k h
    exact ih (objSet m t i) (i + 1) k (isSome_objGet_objSet m t k i h)

theorem dedupAux_nodup (l : List Char) :
    ∀ acc : List Char, acc.Nodup →
      (l.foldl (fun acc c => if acc.contains c then acc else acc ++ [c]) acc).Nodup := by
  induction l with
  | nil => intro acc h; exact h
  | cons c l ih =>
    intro acc h
    simp only [List.foldl_cons]
    by_cases hc : acc.contains c = true
    · rw [if_pos hc]
      exact ih acc h
    · rw [if_neg hc]
      refine ih (acc ++ [c]) ?_
      rw [List.nodup_append]
      refine ⟨h, List.nodup_singleton c, ?_⟩
      intro a ha hb
      have : a = c := by simpa using hb
      rw [this] at ha
      exact hc (by simpa [List.elem_iff] using ha)

theorem dedupFirst_nodup (l : List Char) : (dedupFirst l).Nodup :=
  dedupAux_nodup l [] List.nodup_nil

theorem mem_dedupAux (l : List Char) :
    ∀ (acc : List Char) (a : Char),
      (a ∈ l.foldl (fun acc c => if acc.contains c then acc else acc ++ [c]) acc ↔
        a ∈ acc ∨ a ∈ l) := by
  induction l with
  | nil => intro acc a; simp
  | cons c l ih =>
    intro acc a
    simp only [List.foldl_cons]
    by_cases hc : acc.contains c = true
    · rw [if_pos hc, ih]
      constructor
      · rintro (h | h)
        · exact Or.inl h
        · exact Or.inr (List.mem_cons_of_mem c h)
      · rintro (h | h)
        · exact Or.inl h
        · rcases List.mem_cons.1 h with h1 | h1
          · rw [h1]
            exact Or.inl (by simpa [List.elem_iff] using hc)
          · exact Or.inr h1
    · rw [if_neg hc, ih]
      constructor
      · rintro (h | h)
        · rcases List.mem_append.1 h with h1 | h1
          · exact Or.inl h1
          · exact Or.inr (List.mem_cons.2 (Or.inl (by simpa using h1)))
        · exact Or.inr (List.mem_cons_of_mem c h)
      · rintro (h | h)
        · exact Or.inl (List.mem_append.2 (Or.inl h))
        · rcases List.mem_cons.1 h with h1 | h1
          · exact Or.inl (List.mem_append.2 (Or.inr (by simpa using h1)))
          · exact Or.inr h1

theorem mem_dedupFirst {l : List Char} {a : Char} :
    a ∈ dedupFirst l ↔ a ∈ l := by
  rw [dedupFirst, mem_dedupAux l [] a]
  simp

theorem jsFromEntriesAux_closed {κ ν : Type} [BEq κ] [LawfulBEq κ] [DecidableEq κ]
    (l : List (κ × ν)) :
    ∀ acc : List (κ × ν), (((acc ++ l).map Prod.fst).Nodup) →
      l.foldl (fun a p => objSet a p.1 p.2) acc = acc ++ l := by
  induction l with
  | nil => intro acc _; simp
  | cons p l ih =>
    intro acc hnd
    simp only [List.foldl_cons]
    have hfresh : ∀ q ∈ acc, q.1 ≠ p.1 := by
      intro q hq he
      have hd := hnd
      rw [List.map_append, List.nodup_append] at hd
      refine hd.2.2 (List.mem_map.2 ⟨q, hq, rfl⟩) ?_
      simp only [List.map_cons]
      exact he ▸ List.mem_cons_self _ _
    rw [objSet_of_fresh p.2 hfresh]
    have : acc ++ p :: l = (acc ++ [p]) ++ l := by
      rw [List.append_assoc]
      rfl
    rw [this] at hnd ⊢
    exact ih (acc ++ [p]) hnd

theorem jsFromEntries_of_nodup {κ ν : Type} [BEq κ] [LawfulBEq κ] [DecidableEq κ]
    (l : List (κ × ν)) (h : (l.map Prod.fst).Nodup) : jsFromEntries l = l := by
  rw [jsFromEntries, jsFromEntriesAux_closed l [] (by simpa using h)]
  simp

theorem objGet_swap_of_mem {v : List (List Char × Nat)} {t : List Char} {i : Nat}
    (hvals : (v.map Prod.snd).Nodup) (h : (t, i) ∈ v) :
    objGet (v.map Prod.swap) i = some t := by
  induction v with
  | nil => simp at h
  | cons p v ih =>
    simp only [List.map_cons, List.nodup_cons] at hvals
    simp only [List.map_cons]
    rw [objGet_cons]
    rcases List.mem_cons.1 h with h1 | h1
    · rw [← h1]
      simp [Prod.swap]
    · have hne : p.swap.1 ≠ i := by
        intro he
        refine hvals.1 ?_
        have : i = p.2 := by simpa [Prod.swap] using he.symm
        exact this ▸ List.mem_map.2 ⟨(t, i), h1, rfl⟩
      rw [if_neg hne]
      exact ih hvals.2 h1

theorem mem_of_objGet_swap {v : List (List Char × Nat)} {t : List Char} {i : Nat}
    (h : objGet (v.map Prod.swap) i = some t) : (t, i) ∈ v := by
  have := objGet_mem h
  rcases List.mem_map.1 this with ⟨p, hp, he⟩
  have hpe : p = (t, i) := by
    obtain ⟨a, b⟩ := p
    simp only [Prod.swap, Prod.mk.injEq] at he
    simp [he.1, he.2]
  exact hpe ▸ hp

/-! ### Reserved-token facts and closed forms of the builds -/

theorem addSpecials_nil : addSpecials [] = specialsList := by decide

theorem specials_key_not_len1 : ∀ p ∈ specialsList, p.1.length ≠ 1 := by decide

theorem specials_keys_nodup : (specialsList.map Prod.fst).Nodup := by decide

theorem singleton_injective : Function.Injective (fun c : Char => [c]) := by
  intro a b h
  simpa using h

theorem charB_vocab (texts : List (List Char)) :
    (charB texts).vocab =
      specialsList ++ idxFrom 4 ((dedupFirst texts.flatten).map (fun c => [c])) := by
  have hnd : ((dedupFirst texts.flatten).map (fun c => [c])).Nodup :=
    (dedupFirst_nodup texts.flatten).map singleton_injective
  have hfresh : ∀ t ∈ (dedupFirst texts.flatten).map (fun c => [c]),
      ∀ p ∈ specialsList, p.1 ≠ t := by
    intro t ht p hp he
    rcases List.mem_map.1 ht with ⟨c, _, hc⟩
    have h1 : p.1.length = 1 := by rw [he, ← hc]; rfl
    exact specials_key_not_len1 p hp h1
  show (assignFrom (addSpecials []) 4 _).1 = _
  rw [addSpecials_nil]
  exact assignFrom_closed _ specialsList 4 hfresh hnd

theorem charB_reverseVocab (texts : List (List Char)) :
    (charB texts).reverseVocab =
      jsFromEntries ((charB texts).vocab.map (fun p => (p.2, p.1))) := rfl

/-! ### Well-formedness of a reserved-prefix vocabulary -/

theorem svoc_map_fst (ts : List (List Char)) :
    ((specialsList ++ idxFrom 4 ts).map Prod.fst) =
      [padTok, unkTok, startTok, endTok] ++ ts := by
  rw [List.map_append, idxFrom_map_fst]
  rfl

theorem svoc_keys_nodup (ts : List (List Char)) (hnd : ts.Nodup)
    (hns : ∀ t ∈ ts, NotSpecial t) :
    (((specialsList ++ idxFrom 4 ts)).map Prod.fst).Nodup := by
  rw [svoc_map_fst, List.nodup_append]
  refine ⟨by decide, hnd, ?_⟩
  intro a ha hb
  rcases hns a hb with ⟨h1, h2, h3, h4⟩
  simp only [List.mem_cons, List.not_mem_nil, or_false] at ha
  rcases ha with h | h | h | h
  · exact h1 h
  · exact h2 h
  · exact h3 h
  · exact h4 h

theorem svoc_map_snd (ts : List (List Char)) :
    ((specialsList ++ idxFrom 4 ts).map Prod.snd) =
      List.range (4 + ts.length) := by
  rw [List.map_append, idxFrom_map_snd]
  have h4 : (specialsList.map Prod.snd) = List.range' 0 4 := by decide
  rw [h4, List.range_eq_range']
  have happ := List.range'_append_1 0 4 ts.length
  simp only [Nat.zero_add] at happ
  rw [happ, Nat.add_comm ts.length 4]

theorem svoc_length (ts : List (List Char)) :
    (specialsList ++ idxFrom 4 ts).length = 4 + ts.length := by
  have := congrArg List.length (svoc_map_snd ts)
  simpa using this

theorem svoc_values_nodup (ts : List (List Char)) :
    ((specialsList ++ idxFrom 4 ts).map Prod.snd).Nodup := by
  rw [svoc_map_snd]
  exact List.nodup_range _

theorem objGet_specials_of_notSpecial {t : List Char} (h : NotSpecial t) :
    objGet specialsList t = none := by
  rw [objGet_eq_none_iff]
  intro p hp he
  rcases h with ⟨h1, h2, h3, h4⟩
  simp only [specialsList, List.mem_cons, List.not_mem_nil, or_false] at hp
  rcases hp with hq | hq | hq | hq
  · rw [hq] at he; exact h1 he.symm
  · rw [hq] at he; exact h2 he.symm
  · rw [hq] at he; exact h3 he.symm
  · rw [hq] at he; exact h4 he.symm

theorem objGet_svoc_notSpecial (ts : List (List Char)) {t : List Char}
    (h : NotSpecial t) :
    objGet (specialsList ++ idxFrom 4 ts) t = objGet (idxFrom 4 ts) t := by
  rw [objGet_append, objGet_specials_of_notSpecial h]
  rfl

theorem objGet_svoc_ge4 (ts : List (List Char)) {t : List Char} {i : Nat}
    (h : NotSpecial t) (hg : objGet (specialsList ++ idxFrom 4 ts) t = some i) :
    4 ≤ i := by
  rw [objGet_svoc_notSpecial ts h] at hg
  have := mem_idxFrom ts 4 (objGet_mem hg)
  exact this.2.1

theorem objGet_svoc_unk (ts : List (List Char)) :
    objGet (specialsList ++ idxFrom 4 ts) unkTok = some 1 := by
  rw [objGet_append]
  have : objGet specialsList unkTok = some 1 := by decide
  rw [this]
  rfl

theorem values_nodup_inj : ∀ {v : List (List Char × Nat)},
    (v.map Prod.snd).Nodup → ∀ {t1 t2 : List Char} {i : Nat},
      (t1, i) ∈ v → (t2, i) ∈ v → t1 = t2 := by
  intro v
  induction v with
  | nil => intro _ t1 t2 i h; simp at h
  | cons p v ih =>
    intro hnd t1 t2 i h1 h2
    simp only [List.map_cons, List.nodup_cons] at hnd
    rcases List.mem_cons.1 h1 with ha | ha <;> rcases List.mem_cons.1 h2 with hb | hb
    · have hee : (t1, i) = ((t2, i) : List Char × Nat) := ha.trans hb.symm
      exact congrArg Prod.fst hee
    · exfalso
      refine hnd.1 ?_
      have hp2 : p.2 = i := (congrArg Prod.snd ha).symm
      exact hp2 ▸ List.mem_map.2 ⟨(t2, i), hb, rfl⟩
    · exfalso
      refine hnd.1 ?_
      have hp2 : p.2 = i := (congrArg Prod.snd hb).symm
      exact hp2 ▸ List.mem_map.2 ⟨(t1, i), ha, rfl⟩
    · exact ih hnd.2 ha hb

theorem svoc_wf (ts : List (List Char)) (hnd : ts.Nodup)
    (hns : ∀ t ∈ ts, NotSpecial t) :
    VocabWF (specialsList ++ idxFrom 4 ts)
      (jsFromEntries ((specialsList ++ idxFrom 4 ts).map (fun p => (p.2, p.1)))) := by
  have hknd := svoc_keys_nodup ts hnd hns
  have hvnd := svoc_values_nodup ts
  have hswap : ((specialsList ++ idxFrom 4 ts).map (fun p : List Char × Nat => (p.2, p.1)))
      = (specialsList ++ idxFrom 4 ts).map Prod.swap := by
    refine List.map_congr_left (fun p _ => ?_)
    rfl
  have hrv : jsFromEntries ((specialsList ++ idxFrom 4 ts).map (fun p => (p.2, p.1)))
      = (specialsList ++ idxFrom 4 ts).map Prod.swap := by
    rw [hswap]
    refine jsFromEntries_of_nodup _ ?_
    have : ((specialsList ++ idxFrom 4 ts).map Prod.swap).map Prod.fst
        = (specialsList ++ idxFrom 4 ts).map Prod.snd := by
      rw [List.map_map]
      rfl
    rw [this]
    exact hvnd
  refine ⟨?_, ?_, ?_, ?_⟩
  · intro t1 t2 i h1 h2
    exact values_nodup_inj hvnd (objGet_mem h1) (objGet_mem h2)
  · intro t i
    rw [hrv]
    constructor
    · intro h
      exact objGet_swap_of_mem hvnd (objGet_mem h)
    · intro h
      exact objGet_of_mem hknd (mem_of_objGet_swap h)
  · rw [svoc_map_snd, svoc_length]
  · intro t i hg hlt
    by_cases h1 : t = padTok
    · exact Or.inl h1
    by_cases h2 : t = unkTok
    · exact Or.inr (Or.inl h2)
    by_cases h3 : t = startTok
    · exact Or.inr (Or.inr (Or.inl h3))
    by_cases h4 : t = endTok
    · exact Or.inr (Or.inr (Or.inr h4))
    exfalso
    have := objGet_svoc_ge4 ts ⟨h1, h2, h3, h4⟩ hg
    omega

/-! ### Word-unit shape and the WordTokenizer closed form -/

theorem singleton_notSpecial (c : Char) : NotSpecial [c] := by
  refine ⟨?_, ?_, ?_, ?_⟩ <;>
    · intro he
      have hl := congrArg List.length he
      simp only [List.length_cons, List.length_nil, padTok, unkTok, startTok, endTok,
        String.toList] at hl
      simp at hl

theorem wordUnitsAux_shape : ∀ (s cur : List Char),
    (∀ c ∈ cur, isWordChar c = true) →
    ∀ u ∈ wordUnitsAux s cur,
      u ≠ [] ∧ ((∀ c ∈ u, isWordChar c = true) ∨
        (∃ c, u = [c] ∧ isWordChar c = false ∧ isJsSpace c = false)) := by
  intro s
  induction s with
  | nil =>
    intro cur hcur u hu
    simp only [wordUnitsAux] at hu
    by_cases hc : cur = []
    · rw [if_pos hc] at hu
      simp at hu
    · rw [if_neg hc] at hu
      have : u = cur.reverse := by simpa using hu
      rw [this]
      refine ⟨by simpa using hc, Or.inl ?_⟩
      intro c hcm
      exact hcur c (List.mem_reverse.1 hcm)
  | cons c rest ih =>
    intro cur hcur u hu
    simp only [wordUnitsAux] at hu
    by_cases hw : isWordChar c = true
    · rw [if_pos hw] at hu
      refine ih (c :: cur) ?_ u hu
      intro d hd
      rcases List.mem_cons.1 hd with h1 | h1
      · rw [h1]; exact hw
      · exact hcur d h1
    · rw [if_neg hw] at hu
      rcases List.mem_append.1 hu with h1 | h1
      · by_cases hc : cur = []
        · rw [if_pos hc] at h1
          simp at h1
        · rw [if_neg hc] at h1
          have : u = cur.reverse := by simpa using h1
          rw [this]
          refine ⟨by simpa using hc, Or.inl ?_⟩
          intro d hd
          exact hcur d (List.mem_reverse.1 hd)
      · by_cases hs : isJsSpace c = true
        · rw [if_pos hs] at h1
          exact ih [] (by intro d hd; simp at hd) u h1
        · rw [if_neg hs] at h1
          rcases List.mem_cons.1 h1 with h2 | h2
          · rw [h2]
            refine ⟨by simp, Or.inr ⟨c, rfl, ?_, ?_⟩⟩
            · exact Bool.eq_false_iff.mpr hw
            · exact Bool.eq_false_iff.mpr hs
          · exact ih [] (by intro d hd; simp at hd) u h2

theorem wordUnits_shape {s u : List Char} (h : u ∈ wordUnits s) :
    u ≠ [] ∧ ((∀ c ∈ u, isWordChar c = true) ∨
      (∃ c, u = [c] ∧ isWordChar c = false ∧ isJsSpace c = false)) :=
  wordUnitsAux_shape s [] (by intro d hd; simp at hd) u h

theorem unit_notSpecial {u : List Char}
    (h : u ≠ [] ∧ ((∀ c ∈ u, isWordChar c = true) ∨
      (∃ c, u = [c] ∧ isWordChar c = false ∧ isJsSpace c = false))) :
    NotSpecial u := by
  obtain ⟨hne, hsh⟩ := h
  rcases hsh with hall | ⟨c, hc, _, _⟩
  · refine ⟨?_, ?_, ?_, ?_⟩ <;>
      · intro he
        have hlt : ('<' : Char) ∈ u := by
          rw [he]
          decide
        have := hall '<' hlt
        simp [isWordChar] at this
  · rw [hc]
    exact singleton_notSpecial c

theorem wordUnits_notSpecial {s u : List Char} (h : u ∈ wordUnits s) :
    NotSpecial u :=
  unit_notSpecial (wordUnits_shape h)

theorem mem_keys_objSet {κ ν : Type} [BEq κ] [LawfulBEq κ] [DecidableEq κ]
    {m : List (κ × ν)} {k : κ} {v : ν} {a : κ}
    (h : a ∈ (objSet m k v).map Prod.fst) : a ∈ m.map Prod.fst ∨ a = k := by
  rcases List.mem_map.1 h with ⟨p, hp, he⟩
  rcases mem_objSet hp with h1 | h1
  · exact Or.inl (List.mem_map.2 ⟨p, h1, he⟩)
  · rw [h1] at he
    exact Or.inr he.symm

theorem keys_objSetW_nodup {m : List (List Char × Nat)} (k : List Char) (v : Nat)
    (hn : (m.map Prod.fst).Nodup) : ((objSetW m k v).map Prod.fst).Nodup := by
  by_cases hk : k = "__proto__".toList
  · rw [objSetW, if_pos hk]
    exact hn
  · rw [objSetW, if_neg hk]
    exact keys_objSet_nodup k v hn

theorem mem_keys_objSetW {m : List (List Char × Nat)} {k : List Char} {v : Nat}
    {a : List Char} (h : a ∈ (objSetW m k v).map Prod.fst) :
    a ∈ m.map Prod.fst ∨ a = k := by
  by_cases hk : k = "__proto__".toList
  · rw [objSetW, if_pos hk] at h
    exact Or.inl h
  · rw [objSetW, if_neg hk] at h
    exact mem_keys_objSet h

theorem jsRead_some {m : List (List Char × Nat)} {k : List Char} {i : Nat}
    (h : objGet m k = some i) : jsRead m k = JsVal.num i := by
  unfold jsRead
  rw [h]

theorem jsRead_none_proto {m : List (List Char × Nat)} {k : List Char}
    (h1 : objGet m k = none) (h2 : k ∈ protoKeys) :
    jsRead m k = JsVal.inherited k := by
  unfold jsRead
  rw [h1]
  exact if_pos h2

theorem jsRead_none_plain {m : List (List Char × Nat)} {k : List Char}
    (h1 : objGet m k = none) (h2 : k ∉ protoKeys) : jsRead m k = JsVal.undef := by
  unfold jsRead
  rw [h1]
  exact if_neg h2

theorem jsOrVal_truthy {a b : JsVal} (h : a.truthy = true) : jsOrVal a b = a := by
  rw [jsOrVal, h]
  rfl

theorem jsOrVal_undef (b : JsVal) : jsOrVal JsVal.undef b = b := rfl

theorem truthy_num {i : Nat} (h : i ≠ 0) : (JsVal.num i).truthy = true := by
  simp [JsVal.truthy, h]

theorem truthy_inherited (k : List Char) : (JsVal.inherited k).truthy = true := rfl

theorem countAux_keys_nodup : ∀ (ws : List (List Char)) (acc : List (List Char × Nat)),
    (acc.map Prod.fst).Nodup →
    ((ws.foldl (fun acc w => objSetW acc w ((objGet acc w).getD 0 + 1)) acc).map
      Prod.fst).Nodup := by
  intro ws
  induction ws with
  | nil => intro acc h; exact h
  | cons w ws ih =>
    intro acc h
    simp only [List.foldl_cons]
    exact ih _ (keys_objSetW_nodup w _ h)

theorem countUnits_keys_nodup (texts : List (List Char)) :
    ((countUnits texts).map Prod.fst).Nodup :=
  countAux_keys_nodup _ [] List.nodup_nil

theorem countAux_keys_sub : ∀ (ws : List (List Char)) (acc : List (List Char × Nat))
    (k : List Char),
    k ∈ ((ws.foldl (fun acc w => objSetW acc w ((objGet acc w).getD 0 + 1)) acc).map
      Prod.fst) → k ∈ acc.map Prod.fst ∨ k ∈ ws := by
  intro ws
  induction ws with
  | nil => intro acc k h; exact Or.inl h
  | cons w ws ih =>
    intro acc k h
    simp only [List.foldl_cons] at h
    rcases ih _ k h with h1 | h1
    · rcases mem_keys_objSetW h1 with h2 | h2
      · exact Or.inl h2
      · exact Or.inr (h2 ▸ List.mem_cons_self w ws)
    · exact Or.inr (List.mem_cons_of_mem w h1)

theorem countUnits_keys_units {texts : List (List Char)} {k : List Char}
    (h : k ∈ (countUnits texts).map Prod.fst) :
    ∃ t ∈ texts, k ∈ wordUnits (lowerL t) := by
  rcases countAux_keys_sub _ [] k h with h1 | h1
  · simp at h1
  · rcases List.mem_flatten.1 h1 with ⟨l, hl, hk⟩
    rcases List.mem_map.1 hl with ⟨t, ht, he⟩
    exact ⟨t, ht, he ▸ hk⟩

theorem insertDesc_perm (x : List Char × Nat) :
    ∀ l : List (List Char × Nat), (insertDesc x l).Perm (x :: l) := by
  intro l
  induction l with
  | nil => exact List.Perm.refl _
  | cons y ys ih =>
    simp only [insertDesc]
    by_cases hy : y.2 < x.2
    · rw [if_pos hy]
    · rw [if_neg hy]
      exact (ih.cons y).trans (List.Perm.swap x y ys)

theorem sortAux_perm : ∀ (l acc : List (List Char × Nat)),
    ((l.foldl (fun a x => insertDesc x a) acc)).Perm (acc ++ l) := by
  intro l
  induction l with
  | nil => intro acc; simp
  | cons x xs ih =>
    intro acc
    simp only [List.foldl_cons]
    refine (ih (insertDesc x acc)).trans ?_
    refine (List.Perm.append_right xs (insertDesc_perm x acc)).trans ?_
    have : (x :: acc) ++ xs = x :: (acc ++ xs) := rfl
    rw [this]
    exact List.perm_middle.symm

theorem sortFreqDesc_perm (l : List (List Char × Nat)) :
    (sortFreqDesc l).Perm l := by
  have := sortAux_perm l []
  simpa [sortFreqDesc] using this

theorem sortFreqDesc_keys_nodup (l : List (List Char × Nat))
    (h : (l.map Prod.fst).Nodup) : ((sortFreqDesc l).map Prod.fst).Nodup :=
  ((sortFreqDesc_perm l).map Prod.fst).nodup_iff.mpr h

theorem wordKeys_def (m : Nat) (texts : List (List Char)) :
    (wordB m texts).vocab = specialsList ++ idxFrom 4
      ((jsSliceTo (sortFreqDesc (countUnits texts)) ((m : Int) - 4)).map Prod.fst) := by
  have hsortnd : ((sortFreqDesc (countUnits texts)).map Prod.fst).Nodup :=
    sortFreqDesc_keys_nodup _ (countUnits_keys_nodup texts)
  have htake : (jsSliceTo (sortFreqDesc (countUnits texts)) ((m : Int) - 4)).map Prod.fst
      = ((sortFreqDesc (countUnits texts)).map Prod.fst).take
          (if 0 ≤ (m : Int) - 4 then ((m : Int) - 4).toNat
           else (sortFreqDesc (countUnits texts)).length - (-((m : Int) - 4)).toNat) := by
    rw [jsSliceTo, List.map_take]
  have hnd : ((jsSliceTo (sortFreqDesc (countUnits texts)) ((m : Int) - 4)).map
      Prod.fst).Nodup := by
    rw [htake]
    exact hsortnd.sublist (List.take_sublist _ _)
  have hns : ∀ t ∈ (jsSliceTo (sortFreqDesc (countUnits texts)) ((m : Int) - 4)).map
      Prod.fst, NotSpecial t := by
    intro t ht
    rw [htake] at ht
    have h1 : t ∈ (sortFreqDesc (countUnits texts)).map Prod.fst :=
      (List.take_sublist _ _).subset ht
    have h2 : t ∈ (countUnits texts).map Prod.fst :=
      ((sortFreqDesc_perm (countUnits texts)).map Prod.fst).mem_iff.1 h1
    rcases countUnits_keys_units h2 with ⟨u, _, hu⟩
    exact wordUnits_notSpecial hu
  have hfresh : ∀ t ∈ (jsSliceTo (sortFreqDesc (countUnits texts)) ((m : Int) - 4)).map
      Prod.fst, ∀ p ∈ specialsList, p.1 ≠ t := by
    intro t ht p hp he
    rcases hns t ht with ⟨h1, h2, h3, h4⟩
    simp only [specialsList, List.mem_cons, List.not_mem_nil, or_false] at hp
    rcases hp with hq | hq | hq | hq
    · rw [hq] at he; exact h1 he.symm
    · rw [hq] at he; exact h2 he.symm
    · rw [hq] at he; exact h3 he.symm
    · rw [hq] at he; exact h4 he.symm
  show (assignFrom (addSpecials []) 4 _).1 = _
  rw [addSpecials_nil]
  exact assignFrom_closed _ specialsList 4 hfresh hnd

/-! ### Small evaluation lemmas and per-tokenizer well-formedness -/

theorem jsOr_some (i : Nat) (b : Option Nat) :
    jsOr (some i) b = if i = 0 then b else some i := rfl

theorem jsOr_none (b : Option Nat) : jsOr none b = b := rfl

theorem jsOrStr_some (t b : List Char) :
    jsOrStr (some t) b = if t = [] then b else t := rfl

theorem jsOrZero_some (i : Nat) : jsOrZero (some i) = i := by
  by_cases h : i = 0
  · rw [h]; rfl
  · show (if i = 0 then 0 else i) = i
    rw [if_neg h]

theorem jsOrZero_none : jsOrZero none = 0 := rfl

theorem flatten_singletons : ∀ l : List Char, (l.map (fun c => [c])).flatten = l := by
  intro l
  induction l with
  | nil => rfl
  | cons c l ih =>
    simp only [List.map_cons, List.flatten_cons, ih]
    rfl

theorem charKeys_nodup (texts : List (List Char)) :
    ((dedupFirst texts.flatten).map (fun c => [c])).Nodup :=
  (dedupFirst_nodup texts.flatten).map singleton_injective

theorem charKeys_notSpecial (texts : List (List Char)) :
    ∀ t ∈ (dedupFirst texts.flatten).map (fun c => [c]), NotSpecial t := by
  intro t ht
  rcases List.mem_map.1 ht with ⟨c, _, hc⟩
  exact hc ▸ singleton_notSpecial c

theorem wordB_reverseVocab (m : Nat) (texts : List (List Char)) :
    (wordB m texts).reverseVocab =
      jsFromEntries ((wordB m texts).vocab.map (fun p => (p.2, p.1))) := rfl

theorem charB_wf (texts : List (List Char)) :
    VocabWF (charB texts).vocab (charB texts).reverseVocab := by
  have h := svoc_wf ((dedupFirst texts.flatten).map (fun c => [c]))
    (charKeys_nodup texts) (charKeys_notSpecial texts)
  rw [charB_reverseVocab, charB_vocab]
  exact h

theorem wordB_keys_nodup (m : Nat) (texts : List (List Char)) :
    ((jsSliceTo (sortFreqDesc (countUnits texts)) ((m : Int) - 4)).map Prod.fst).Nodup := by
  have hsortnd : ((sortFreqDesc (countUnits texts)).map Prod.fst).Nodup :=
    sortFreqDesc_keys_nodup _ (countUnits_keys_nodup texts)
  rw [jsSliceTo, List.map_take]
  exact hsortnd.sublist (List.take_sublist _ _)

theorem wordB_keys_notSpecial (m : Nat) (texts : List (List Char)) :
    ∀ t ∈ (jsSliceTo (sortFreqDesc (countUnits texts)) ((m : Int) - 4)).map Prod.fst,
      NotSpecial t := by
  intro t ht
  rw [jsSliceTo, List.map_take] at ht
  have h1 : t ∈ (sortFreqDesc (countUnits texts)).map Prod.fst :=
    (List.take_sublist _ _).subset ht
  have h2 : t ∈ (countUnits texts).map Prod.fst :=
    ((sortFreqDesc_perm (countUnits texts)).map Prod.fst).mem_iff.1 h1
  rcases countUnits_keys_units h2 with ⟨u, _, hu⟩
  exact wordUnits_notSpecial hu

theorem wordB_wf (m : Nat) (texts : List (List Char)) :
    VocabWF (wordB m texts).vocab (wordB m texts).reverseVocab := by
  have h := svoc_wf
    ((jsSliceTo (sortFreqDesc (countUnits texts)) ((m : Int) - 4)).map Prod.fst)
    (wordB_keys_nodup m texts) (wordB_keys_notSpecial m texts)
  rw [wordB_reverseVocab, wordKeys_def]
  exact h

theorem charB_unk (texts : List (List Char)) :
    objGet (charB texts).vocab unkTok = some 1 := by
  rw [charB_vocab]
  exact objGet_svoc_unk _

theorem wordB_unk (m : Nat) (texts : List (List Char)) :
    objGet (wordB m texts).vocab unkTok = some 1 := by
  rw [wordKeys_def]
  exact objGet_svoc_unk _

theorem charB_lookup_ge4 {texts : List (List Char)} {c : Char} {i : Nat}
    (h : objGet (charB texts).vocab [c] = some i) : 4 ≤ i := by
  rw [charB_vocab] at h
  exact objGet_svoc_ge4 _ (singleton_notSpecial c) h

theorem wordB_lookup_ge4 {m : Nat} {texts : List (List Char)} {u : List Char} {i : Nat}
    (hu : NotSpecial u) (h : objGet (wordB m texts).vocab u = some i) : 4 ≤ i := by
  rw [wordKeys_def] at h
  exact objGet_svoc_ge4 _ hu h

/-! ### Claim theorems, first batch -/

/-- C2 (counterexample): the `SimpleBPETokenizer` never writes the four
reserved tokens; on the empty corpus its vocabulary is empty, so it does not
contain at least 4 entries. -/
theorem c2_counterexample_bpe_empty_vocab :
    ¬ (4 ≤ (bpeB ([] : List (List Char)) 100).vocab.length) := by decide

/-- C2 (amended): for every corpus, the vocabularies built by
`CharacterTokenizer` and `WordTokenizer` contain at least 4 entries, because
the reserved tokens `PAD, UNK, START, END` are always written; the
`SimpleBPETokenizer` writes no reserved tokens and its vocabulary can be
smaller (even empty). -/
theorem c2_char_word_vocab_ge4 (texts : List (List Char)) (m : Nat) :
    4 ≤ (charB texts).vocab.length ∧ 4 ≤ (wordB m texts).vocab.length := by
  constructor
  · rw [charB_vocab, svoc_length]
    omega
  · rw [wordKeys_def, svoc_length]
    omega

/-- C3 (confirmed): for a built `CharacterTokenizer` and any text all of
whose code points occur in the vocabulary, `decode (encode text) = text`. -/
theorem c3_char_decode_encode (texts : List (List Char)) (text : List Char)
    (h : ∀ c ∈ text, (objGet (charB texts).vocab [c]).isSome = true) :
    (charB texts).decode ((charB texts).encode text) = text := by
  obtain ⟨hinj, hinv, hcont, hres⟩ := charB_wf texts
  have hpt : ∀ c ∈ text,
      (fun t : Option Nat =>
        match t with
        | some n => jsOrStr (objGet (charB texts).reverseVocab n) unkTok
        | none => unkTok)
      (jsOr (objGet (charB texts).vocab [c]) (objGet (charB texts).vocab unkTok))
        = [c] := by
    intro c hc
    rcases Option.isSome_iff_exists.1 (h c hc) with ⟨i, hi⟩
    have hge : 4 ≤ i := charB_lookup_ge4 hi
    rw [hi, jsOr_some, if_neg (by omega : ¬ i = 0)]
    have hrv : objGet (charB texts).reverseVocab i = some [c] := (hinv [c] i).1 hi
    simp only [hrv, jsOrStr_some]
    rw [if_neg (by simp : ¬ ([c] : List Char) = [])]
  calc (charB texts).decode ((charB texts).encode text)
      = (text.map (fun c => [c])).flatten := by
        simp only [CharacterTokenizer.decode, CharacterTokenizer.encode, List.map_map]
        exact congrArg List.flatten (List.map_congr_left hpt)
    _ = text := flatten_singletons text

/-- C3 witness: a concrete corpus and text satisfying the hypothesis. -/
theorem c3_witness :
    (charB ["ab".toList]).decode ((charB ["ab".toList]).encode "ab".toList)
      = "ab".toList :=
  c3_char_decode_encode ["ab".toList] "ab".toList (by decide)

/-- C4 (counterexample): for the BPE tokenizer with corpus `["abab abab"]`
and `numMerges = 2` the same pair is merged twice, the key `"ab"` is
re-assigned a fresh id, and the resulting ids `[0, 1, 3]` are not contiguous. -/
theorem c4_counterexample_bpe_ids_not_contiguous :
    ¬ ((bpeB ["abab abab".toList] 2).vocab.map Prod.snd
        = List.range (bpeB ["abab abab".toList] 2).vocab.length) := by decide

/-- C4 (amended): for every corpus, the vocabularies built fresh by
`CharacterTokenizer` and `WordTokenizer` satisfy the claimed invariant:
injective token-to-id mapping, exact inverse reverse mapping, ids contiguous
from 0, and reserved ids 0–3 only on the four reserved tokens.  (The
`SimpleBPETokenizer` violates contiguity and has no reserved tokens.) -/
theorem c4_char_word_vocab_wf (texts : List (List Char)) (m : Nat) :
    VocabWF (charB texts).vocab (charB texts).reverseVocab ∧
    VocabWF (wordB m texts).vocab (wordB m texts).reverseVocab :=
  ⟨charB_wf texts, wordB_wf m texts⟩

/-- C9 (counterexample): `WordTokenizer.encode` walks the prototype chain:
on a tokenizer built from `["a"]`, the unit `"constructor"` is absent from
the vocabulary's own keys, yet the inherited truthy
`Object.prototype.constructor` is emitted — neither the `UNK` id 1 nor any
id at all. -/
theorem c9_counterexample_word_prototype_leak :
    ¬ (∀ o ∈ (wordB 10 ["a".toList]).encode "constructor".toList,
        o = JsVal.num 1 ∨ ∃ i : Nat, o = JsVal.num i ∧ 4 ≤ i) := by
  intro h
  have hm : JsVal.inherited "constructor".toList
      ∈ (wordB 10 ["a".toList]).encode "constructor".toList := by decide
  rcases h _ hm with h1 | ⟨i, h2, _⟩
  · exact absurd h1 (by decide)
  · simp at h2

/-- C9 (amended): every id emitted by `CharacterTokenizer.encode` on a
fresh-built tokenizer is the `UNK` id 1 or an id at least 4.  The same holds
for `WordTokenizer.encode` except for units that are `Object.prototype`
property names and not own keys of the vocabulary: there the lookup returns
the inherited truthy prototype value, which is emitted instead of the `UNK`
id.  In every case the reserved ids 0, 2, 3 never occur. -/
theorem c9_amended_encode_ids (texts : List (List Char)) (m : Nat)
    (text : List Char) :
    (∀ o ∈ (charB texts).encode text, o = some 1 ∨ ∃ i, o = some i ∧ 4 ≤ i) ∧
    (∀ o ∈ (wordB m texts).encode text,
      o = JsVal.num 1 ∨ (∃ i, o = JsVal.num i ∧ 4 ≤ i) ∨
      (∃ u ∈ protoKeys, objGet (wordB m texts).vocab u = none ∧
        o = JsVal.inherited u)) := by
  constructor
  · intro o ho
    rcases List.mem_map.1 ho with ⟨c, _, he⟩
    rcases hg : objGet (charB texts).vocab [c] with _ | i
    · left
      rw [← he, hg, jsOr_none, charB_unk]
    · right
      have hge : 4 ≤ i := charB_lookup_ge4 hg
      refine ⟨i, ?_, hge⟩
      rw [← he, hg, jsOr_some, if_neg (by omega : ¬ i = 0)]
  · intro o ho
    rcases List.mem_map.1 ho with ⟨u, hu, he⟩
    rcases hg : objGet (wordB m texts).vocab u with _ | i
    · by_cases hpk : u ∈ protoKeys
      · right
        right
        refine ⟨u, hpk, hg, ?_⟩
        rw [← he, jsRead_none_proto hg hpk, jsOrVal_truthy (truthy_inherited u)]
      · left
        rw [← he, jsRead_none_plain hg hpk, jsOrVal_undef,
          jsRead_some (wordB_unk m texts)]
    · right
      left
      have hge : 4 ≤ i := wordB_lookup_ge4 (wordUnits_notSpecial hu) hg
      refine ⟨i, ?_, hge⟩
      rw [← he, jsRead_some hg, jsOrVal_truthy (truthy_num (by omega))]

/-- C9 witness: a concrete emitted char id satisfying the bound, and the
concrete inherited value emitted for the absent unit `"constructor"`. -/
theorem c9_witness :
    ((some 4 : Option Nat) = some 1 ∨
      ∃ i, (some 4 : Option Nat) = some i ∧ 4 ≤ i) ∧
    (JsVal.inherited "constructor".toList = JsVal.num 1 ∨
      (∃ i, JsVal.inherited "constructor".toList = JsVal.num i ∧ 4 ≤ i) ∨
      (∃ u ∈ protoKeys, objGet (wordB 10 ["a".toList]).vocab u = none ∧
        JsVal.inherited "constructor".toList = JsVal.inherited u)) :=
  ⟨(c9_amended_encode_ids ["a".toList] 10 "a".toList).1 (some 4) (by decide),
   (c9_amended_encode_ids ["a".toList] 10 "constructor".toList).2
     (JsVal.inherited "constructor".toList) (by decide)⟩

/-! ### Lower-casing, rebuild retention, and BPE concrete facts -/

theorem toNat_ofNat_valid {n : Nat} (h : n.isValidChar) :
    (Char.ofNat n).toNat = n := by
  rw [Char.ofNat, dif_pos h]
  rfl

theorem jsToLower_idem (c : Char) : jsToLower (jsToLower c) = jsToLower c := by
  by_cases h : 65 ≤ c.toNat ∧ c.toNat ≤ 90
  · have hval : (Char.ofNat (c.toNat + 32)).toNat = c.toNat + 32 :=
      toNat_ofNat_valid (Or.inl (by omega))
    unfold jsToLower
    rw [if_pos h, hval, if_neg (by omega)]
  · unfold jsToLower
    rw [if_neg h, if_neg h]

theorem lowerL_idem (s : List Char) : lowerL (lowerL s) = lowerL s := by
  simp only [lowerL, List.map_map]
  refine List.map_congr_left (fun c _ => ?_)
  simp only [Function.comp_apply]
  exact jsToLower_idem c

theorem bpeLoop_isSome_vocab : ∀ (n : Nat) (words : List (List Char)) (st : BpeSt)
    (t : List Char), (objGet st.vocab t).isSome = true →
    (objGet (bpeLoop n words st).vocab t).isSome = true := by
  intro n
  induction n with
  | zero => intro words st t h; exact h
  | succ n ih =>
    intro words st t h
    cases hm : argmaxFirst (getPairFrequencies words) with
    | none => simpa [bpeLoop, hm] using h
    | some pr =>
      simp only [bpeLoop, hm]
      exact ih _ _ t (isSome_objGet_objSet _ _ _ _ h)

theorem bpeLoop_isSome_merges : ∀ (n : Nat) (words : List (List Char)) (st : BpeSt)
    (pr2 : Char × Char), (objGet st.merges pr2).isSome = true →
    (objGet (bpeLoop n words st).merges pr2).isSome = true := by
  intro n
  induction n with
  | zero => intro words st pr2 h; exact h
  | succ n ih =>
    intro words st pr2 h
    cases hm : argmaxFirst (getPairFrequencies words) with
    | none => simpa [bpeLoop, hm] using h
    | some pr =>
      simp only [bpeLoop, hm]
      exact ih _ _ pr2 (isSome_objGet_objSet _ _ _ _ h)

theorem isSome_addSpecials (m : List (List Char × Nat)) (t : List Char)
    (h : (objGet m t).isSome = true) : (objGet (addSpecials m) t).isSome = true :=
  isSome_objGet_objSet _ _ _ _ (isSome_objGet_objSet _ _ _ _
    (isSome_objGet_objSet _ _ _ _ (isSome_objGet_objSet _ _ _ _ h)))

/-! ### Claim theorems, second batch -/

/-- C10 (confirmed): `WordTokenizer.encode` lower-cases its input before
segmenting, and lower-casing is idempotent, so encoding is invariant under
lower-casing the input. -/
theorem c10_word_encode_lower_invariant (m : Nat) (texts : List (List Char))
    (text : List Char) :
    (wordB m texts).encode (lowerL text) = (wordB m texts).encode text := by
  simp only [WordTokenizer.encode, lowerL_idem]

/-- C5 (counterexample): built on the empty corpus, the BPE tokenizer has an
empty vocabulary, yet `encode "x"` falls back to the literal id 0, which is
not a valid id of the vocabulary (and is not a `UNK` substitution: no `UNK`
entry exists). -/
theorem c5_counterexample_bpe_fallback_invalid :
    ¬ (∀ i ∈ (bpeB ([] : List (List Char)) 100).encode ['x'],
        ∃ t, objGet (bpeB ([] : List (List Char)) 100).vocab t = some i) := by
  intro h
  rcases h 0 (by decide) with ⟨t, ht⟩
  have hv : (bpeB ([] : List (List Char)) 100).vocab = [] := by decide
  rw [hv] at ht
  simp [objGet] at ht

/-- C5 (amended): `CharacterTokenizer` substitutes the `UNK` id 1 for code
points absent from the vocabulary, never fails, and every id it emits is a
valid id of the built vocabulary.  `WordTokenizer` does the same for every
unit except the `Object.prototype` property names (reachable as lower-cased
units: `"constructor"` and `"__proto__"`): for such a unit absent from the
vocabulary's own keys, the truthy inherited prototype value is emitted
instead of the `UNK` id, and it is not a vocabulary id at all.
`SimpleBPETokenizer` falls back to the literal 0, which need not be a valid
id. -/
theorem c5_char_word_unk_substitution (texts : List (List Char)) (m : Nat)
    (text : List Char) :
    ((charB texts).encode text
        = text.map (fun c => some ((objGet (charB texts).vocab [c]).getD 1))) ∧
    ((wordB m texts).encode text
        = (wordUnits (lowerL text)).map (fun u =>
            match objGet (wordB m texts).vocab u with
            | some i => JsVal.num i
            | none => if u ∈ protoKeys then JsVal.inherited u else JsVal.num 1)) ∧
    (∀ o ∈ (charB texts).encode text,
      ∃ i, o = some i ∧ ∃ t, objGet (charB texts).vocab t = some i) ∧
    (∀ o ∈ (wordB m texts).encode text,
      (∃ i, o = JsVal.num i ∧ ∃ t, objGet (wordB m texts).vocab t = some i) ∨
      (∃ u ∈ protoKeys, objGet (wordB m texts).vocab u = none ∧
        o = JsVal.inherited u)) := by
  refine ⟨?_, ?_, ?_, ?_⟩
  · refine List.map_congr_left (fun c _ => ?_)
    rcases hg : objGet (charB texts).vocab [c] with _ | i
    · rw [jsOr_none, charB_unk]
      rfl
    · have hge : 4 ≤ i := charB_lookup_ge4 hg
      rw [jsOr_some, if_neg (by omega : ¬ i = 0)]
      rfl
  · refine List.map_congr_left (fun u hu => ?_)
    rcases hg : objGet (wordB m texts).vocab u with _ | i
    · by_cases hpk : u ∈ protoKeys
      · show jsOrVal (jsRead (wordB m texts).vocab u)
            (jsRead (wordB m texts).vocab unkTok)
          = if u ∈ protoKeys then JsVal.inherited u else JsVal.num 1
        rw [jsRead_none_proto hg hpk, jsOrVal_truthy (truthy_inherited u),
          if_pos hpk]
      · show jsOrVal (jsRead (wordB m texts).vocab u)
            (jsRead (wordB m texts).vocab unkTok)
          = if u ∈ protoKeys then JsVal.inherited u else JsVal.num 1
        rw [jsRead_none_plain hg hpk, jsOrVal_undef,
          jsRead_some (wordB_unk m texts), if_neg hpk]
    · show jsOrVal (jsRead (wordB m texts).vocab u)
          (jsRead (wordB m texts).vocab unkTok) = JsVal.num i
      have hge : 4 ≤ i := wordB_lookup_ge4 (wordUnits_notSpecial hu) hg
      rw [jsRead_some hg, jsOrVal_truthy (truthy_num (by omega))]
  · intro o ho
    rcases List.mem_map.1 ho with ⟨c, _, he⟩
    rcases hg : objGet (charB texts).vocab [c] with _ | i
    · refine ⟨1, ?_, unkTok, charB_unk texts⟩
      rw [← he, hg, jsOr_none, charB_unk]
    · have hge : 4 ≤ i := charB_lookup_ge4 hg
      refine ⟨i, ?_, [c], hg⟩
      rw [← he, hg, jsOr_some, if_neg (by omega : ¬ i = 0)]
  · intro o ho
    rcases List.mem_map.1 ho with ⟨u, hu, he⟩
    rcases hg : objGet (wordB m texts).vocab u with _ | i
    · by_cases hpk : u ∈ protoKeys
      · right
        refine ⟨u, hpk, hg, ?_⟩
        rw [← he, jsRead_none_proto hg hpk, jsOrVal_truthy (truthy_inherited u)]
      · left
        refine ⟨1, ?_, unkTok, wordB_unk m texts⟩
        rw [← he, jsRead_none_plain hg hpk, jsOrVal_undef,
          jsRead_some (wordB_unk m texts)]
    · left
      have hge : 4 ≤ i := wordB_lookup_ge4 (wordUnits_notSpecial hu) hg
      refine ⟨i, ?_, u, hg⟩
      rw [← he, jsRead_some hg, jsOrVal_truthy (truthy_num (by omega))]

/-- C5 witness: the amended statement evaluated at a concrete corpus and
text containing an unknown unit. -/
theorem c5_witness :
    (charB ["a".toList]).encode "ab".toList
      = "ab".toList.map
          (fun c => some ((objGet (charB ["a".toList]).vocab [c]).getD 1)) :=
  (c5_char_word_unk_substitution ["a".toList] 10 "ab".toList).1

/-- C7 (counterexample): rebuilding a `CharacterTokenizer` with corpus
`["b"]` after building with `["a"]` keeps the stale entry for `'a'` (now at
the same id 4 as `'b'`), so the state differs from a fresh build on `["b"]`. -/
theorem c7_counterexample_rebuild_keeps_old :
    ((charB ["a".toList]).buildVocabulary ["b".toList]).vocab
      ≠ (charB ["b".toList]).vocab := by decide

/-- C7 (amended): `buildVocabulary` never clears prior state: every token
key present in the vocabulary before a rebuild is still present afterwards,
for each of the three tokenizers, and the BPE merge table likewise retains
prior merge rules. -/
theorem c7_rebuild_retains_prior_entries (x : CharacterTokenizer)
    (y : WordTokenizer) (z : SimpleBPETokenizer) (texts : List (List Char))
    (t : List Char) (pr : Char × Char) :
    ((objGet x.vocab t).isSome = true →
      (objGet (x.buildVocabulary texts).vocab t).isSome = true) ∧
    ((objGet y.vocab t).isSome = true →
      (objGet (y.buildVocabulary texts).vocab t).isSome = true) ∧
    ((objGet z.vocab t).isSome = true →
      (objGet (z.buildVocabulary texts).vocab t).isSome = true) ∧
    ((objGet z.merges pr).isSome = true →
      (objGet (z.buildVocabulary texts).merges pr).isSome = true) := by
  refine ⟨?_, ?_, ?_, ?_⟩
  · intro h
    show (objGet (assignFrom (addSpecials x.vocab) 4
      ((dedupFirst texts.flatten).map (fun c => [c]))).1 t).isSome = true
    exact isSome_assignFrom _ _ _ _ (isSome_addSpecials _ _ h)
  · intro h
    show (objGet (assignFrom (addSpecials y.vocab) 4
      ((jsSliceTo (sortFreqDesc (countUnits texts))
        ((y.maxVocabSize : Int) - 4)).map (fun p => p.1))).1 t).isSome = true
    exact isSome_assignFrom _ _ _ _ (isSome_addSpecials _ _ h)
  · intro h
    show (objGet (bpeLoop z.numMerges ((texts.map splitWs).flatten)
      { vocab := (assignFrom z.vocab 0
          ((dedupFirst ((texts.map splitWs).flatten).flatten).map (fun c => [c]))).1
        idx := (assignFrom z.vocab 0
          ((dedupFirst ((texts.map splitWs).flatten).flatten).map (fun c => [c]))).2
        merges := z.merges }).vocab t).isSome = true
    exact bpeLoop_isSome_vocab _ _ _ t (isSome_assignFrom _ _ _ _ h)
  · intro h
    show (objGet (bpeLoop z.numMerges ((texts.map splitWs).flatten)
      { vocab := (assignFrom z.vocab 0
          ((dedupFirst ((texts.map splitWs).flatten).flatten).map (fun c => [c]))).1
        idx := (assignFrom z.vocab 0
          ((dedupFirst ((texts.map splitWs).flatten).flatten).map (fun c => [c]))).2
        merges := z.merges }).merges pr).isSome = true
    exact bpeLoop_isSome_merges _ _ _ pr h

/-- C7 witness: the stale key `"a"` survives the rebuild with corpus `["b"]`. -/
theorem c7_witness :
    (objGet ((charB ["a".toList]).buildVocabulary ["b".toList]).vocab
      "a".toList).isSome = true :=
  (c7_rebuild_retains_prior_entries (charB ["a".toList]) (wordB 10 [])
    (bpeB [] 1) ["b".toList] "a".toList ('a', 'b')).1 (by decide)

/-- C1 (counterexample): with corpus `["ab ab ab", "ab cd"]` and
`numMerges = 1`, `encode "ab"` returns two ids, not one. -/
theorem c1_counterexample_encode_not_single :
    ¬ (((bpeB ["ab ab ab".toList, "ab cd".toList] 1).encode "ab".toList).length
        = 1) := by decide

/-- C1 (amended): the single learned rule does merge the pair `('a','b')`
(pair frequency 4, strictly highest) into the token `"ab"`, assigned fresh
id 4 distinct from `'a' = 0` and `'b' = 1`; but `encode "ab"` returns
`[0, 1]`, the per-character ids of `'a'` and `'b'`, because the merge
replaces the substring `"ab"` with the identical string and the final
mapping is per character. -/
theorem c1_first_merge_learned_but_encode_per_char :
    getPairFrequencies ((["ab ab ab".toList, "ab cd".toList].map splitWs).flatten)
      = [(('a', 'b'), 4), (('c', 'd'), 1)] ∧
    (bpeB ["ab ab ab".toList, "ab cd".toList] 1).merges
      = [(('a', 'b'), ['a', 'b'])] ∧
    objGet (bpeB ["ab ab ab".toList, "ab cd".toList] 1).vocab ['a', 'b'] = some 4 ∧
    objGet (bpeB ["ab ab ab".toList, "ab cd".toList] 1).vocab ['a'] = some 0 ∧
    objGet (bpeB ["ab ab ab".toList, "ab cd".toList] 1).vocab ['b'] = some 1 ∧
    (bpeB ["ab ab ab".toList, "ab cd".toList] 1).encode "ab".toList = [0, 1] :=
  ⟨by decide, by decide, by decide, by decide, by decide, by decide⟩

/-- C6 (code bug): on the corpus `["(("]` the merge loop constructs
`new RegExp("((", 'g')`, whose pattern has an unbalanced group, so
`buildVocabulary` throws a `SyntaxError` instead of returning normally. -/
theorem c6_bpe_build_throws_on_paren_corpus :
    bpeBChecked ["((".toList] 1 = Except.error ['(', '('] := rfl

/-! ### BPE merge-loop invariant (claim C8) -/

theorem stripStart_eq : ∀ {pat s rem : List Char},
    stripStart pat s = some rem → s = pat ++ rem := by
  intro pat
  induction pat with
  | nil =>
    intro s rem h
    have : s = rem := by simpa [stripStart] using h
    rw [this]
    rfl
  | cons p ps ih =>
    intro s rem h
    cases s with
    | nil => simp [stripStart] at h
    | cons c cs =>
      simp only [stripStart] at h
      by_cases hpc : (p == c) = true
      · rw [if_pos hpc] at h
        have hce : p = c := by simpa using hpc
        have := ih h
        rw [List.cons_append, ← hce, ← this]
      · rw [if_neg hpc] at h
        simp at h

theorem replaceAllGo_self : ∀ (fuel : Nat) (pat s : List Char),
    replaceAllGo pat pat fuel s = s := by
  intro fuel
  induction fuel with
  | zero => intro pat s; rfl
  | succ f ih =>
    intro pat s
    cases s with
    | nil => rfl
    | cons c rest =>
      by_cases hp : pat = []
      · simp only [replaceAllGo, if_pos hp]
      · simp only [replaceAllGo, if_neg hp]
        cases hst : stripStart pat (c :: rest) with
        | none =>
          show c :: replaceAllGo pat pat f rest = c :: rest
          rw [ih pat rest]
        | some rem =>
          show pat ++ replaceAllGo pat pat f rem = c :: rest
          rw [ih pat rem]
          exact (stripStart_eq hst).symm

theorem replaceAllL_self (pat s : List Char) : replaceAllL pat pat s = s :=
  replaceAllGo_self s.length pat s

theorem map_replaceAllL_self (t : List Char) (words : List (List Char)) :
    words.map (fun w => replaceAllL t t w) = words := by
  calc words.map (fun w => replaceAllL t t w)
      = words.map id := List.map_congr_left (fun w _ => replaceAllL_self t w)
    _ = words := List.map_id words

theorem pairFold_const : ∀ (words : List (List Char))
    (acc : List ((Char × Char) × Nat)), (∀ w ∈ words, adjPairs w = []) →
    words.foldl (fun acc w =>
      (adjPairs w).foldl (fun m p => objSet m p ((objGet m p).getD 0 + 1)) acc) acc
      = acc := by
  intro words
  induction words with
  | nil => intro acc _; rfl
  | cons w ws ih =>
    intro acc h
    simp only [List.foldl_cons, h w (List.mem_cons_self w ws), List.foldl_nil]
    exact ih acc (fun u hu => h u (List.mem_cons_of_mem w hu))

theorem adjPairs_ne_nil {w : List Char} (h : adjPairs w ≠ []) : 2 ≤ w.length := by
  match w with
  | [] => exact absurd rfl h
  | [c] => exact absurd rfl h
  | a :: b :: rest => simp only [List.length_cons]; omega

theorem argmax_some_long_word {words : List (List Char)}
    {pr : (Char × Char) × Nat}
    (h : argmaxFirst (getPairFrequencies words) = some pr) :
    ∃ w ∈ words, 2 ≤ w.length := by
  by_contra hno
  push_neg at hno
  have hall : ∀ w ∈ words, adjPairs w = [] := by
    intro w hw
    by_contra hne
    exact absurd (adjPairs_ne_nil hne) (by have := hno w hw; omega)
  have hgp : getPairFrequencies words = [] := pairFold_const words [] hall
  rw [hgp] at h
  simp [argmaxFirst] at h

theorem bpeLoop_inv (k : Nat) : ∀ (n : Nat) (words : List (List Char)) (st : BpeSt),
    ((∃ w ∈ words, 2 ≤ w.length) → 1 ≤ k) →
    k ≤ st.idx →
    (∀ p ∈ st.vocab, (p.1.length = 1 ∧ p.2 < k) ∨ (p.1.length = 2 ∧ k ≤ p.2 ∧ 1 ≤ k)) →
    ∀ p ∈ (bpeLoop n words st).vocab,
      (p.1.length = 1 ∧ p.2 < k) ∨ (p.1.length = 2 ∧ k ≤ p.2 ∧ 1 ≤ k) := by
  intro n
  induction n with
  | zero => intro words st _ _ hv; exact hv
  | succ n ih =>
    intro words st hw hk hv
    cases hm : argmaxFirst (getPairFrequencies words) with
    | none => simpa [bpeLoop, hm] using hv
    | some pr =>
      simp only [bpeLoop, hm]
      have hk1 : 1 ≤ k := hw (argmax_some_long_word hm)
      rw [map_replaceAllL_self]
      refine ih words _ hw (by simp only; omega) ?_
      intro p hp
      simp only at hp
      rcases mem_objSet hp with h1 | h1
      · exact hv p h1
      · right
        rw [h1]
        exact ⟨rfl, hk, hk1⟩

theorem assignFrom_idx : ∀ (ts : List (List Char)) (m : List (List Char × Nat))
    (i : Nat), (assignFrom m i ts).2 = i + ts.length := by
  intro ts
  induction ts with
  | nil => intro m i; simp [assignFrom]
  | cons t ts ih =>
    intro m i
    simp only [assignFrom, ih, List.length_cons]
    omega

theorem bpeB_vocab (texts : List (List Char)) (n : Nat) :
    (bpeB texts n).vocab = (bpeLoop n ((texts.map splitWs).flatten)
      { vocab := idxFrom 0
          ((dedupFirst ((texts.map splitWs).flatten).flatten).map (fun c => [c]))
        idx := (dedupFirst ((texts.map splitWs).flatten).flatten).length
        merges := [] }).vocab := by
  have hnd : ((dedupFirst ((texts.map splitWs).flatten).flatten).map
      (fun c => [c])).Nodup :=
    (dedupFirst_nodup _).map singleton_injective
  have hfresh : ∀ t ∈ (dedupFirst ((texts.map splitWs).flatten).flatten).map
      (fun c => [c]), ∀ p ∈ ([] : List (List Char × Nat)), p.1 ≠ t := by
    intro t _ p hp
    simp at hp
  have h1 := assignFrom_closed
    ((dedupFirst ((texts.map splitWs).flatten).flatten).map (fun c => [c]))
    [] 0 hfresh hnd
  have h2 := assignFrom_idx
    ((dedupFirst ((texts.map splitWs).flatten).flatten).map (fun c => [c])) [] 0
  show (bpeLoop n ((texts.map splitWs).flatten)
    { vocab := (assignFrom [] 0 _).1, idx := (assignFrom [] 0 _).2,
      merges := [] }).vocab = _
  rw [h1, h2]
  simp

/-- The per-entry invariant of a fresh BPE vocabulary, with
`k` the number of distinct seed characters. -/
theorem bpeB_vocab_inv (texts : List (List Char)) (n : Nat) :
    ∀ p ∈ (bpeB texts n).vocab,
      (p.1.length = 1 ∧
        p.2 < (dedupFirst ((texts.map splitWs).flatten).flatten).length) ∨
      (p.1.length = 2 ∧
        (dedupFirst ((texts.map splitWs).flatten).flatten).length ≤ p.2 ∧
        1 ≤ (dedupFirst ((texts.map splitWs).flatten).flatten).length) := by
  rw [bpeB_vocab]
  refine bpeLoop_inv _ n _ _ ?_ ?_ ?_
  · rintro ⟨w, hw, hlen⟩
    have hne : w ≠ [] := by
      intro he
      rw [he] at hlen
      simp at hlen
    rcases List.exists_mem_of_ne_nil w hne with ⟨a, ha⟩
    have hmem : a ∈ ((texts.map splitWs).flatten).flatten :=
      List.mem_flatten.2 ⟨w, hw, ha⟩
    have : a ∈ dedupFirst ((texts.map splitWs).flatten).flatten :=
      mem_dedupFirst.2 hmem
    have := List.length_pos.2 (List.ne_nil_of_mem this)
    omega
  · exact Nat.le_refl _
  · intro p hp
    simp only at hp
    left
    rcases mem_idxFrom _ 0 hp with ⟨hmem, _, hlt⟩
    rcases List.mem_map.1 hmem with ⟨c, _, hc⟩
    constructor
    · rw [← hc]
      rfl
    · rw [List.length_map] at hlt
      omega

/-- C8 (confirmed): every id emitted by `SimpleBPETokenizer.encode` on a
fresh-built tokenizer is either the vocabulary id of a single-character
token or the literal fallback 0; the id of a multi-character merged token
never occurs in encode output (encode maps code points one at a time). -/
theorem c8_bpe_encode_single_char_ids (texts : List (List Char)) (n : Nat)
    (text : List Char) :
    ∀ i ∈ (bpeB texts n).encode text,
      (i = 0 ∨ ∃ c : Char, objGet (bpeB texts n).vocab [c] = some i) ∧
      (∀ t j, objGet (bpeB texts n).vocab t = some j → 2 ≤ t.length → j ≠ i) := by
  intro i hi
  have hinv := bpeB_vocab_inv texts n
  simp only [SimpleBPETokenizer.encode] at hi
  rcases List.mem_map.1 hi with ⟨c, _, he⟩
  constructor
  · rcases hg : objGet (bpeB texts n).vocab [c] with _ | v
    · left
      rw [← he, hg, jsOrZero_none]
    · right
      refine ⟨c, ?_⟩
      rw [hg, ← he, hg, jsOrZero_some]
  · intro t j hj hlen
    rcases hinv (t, j) (objGet_mem hj) with ⟨hl, _⟩ | ⟨_, hge, hk1⟩
    · simp only at hl
      omega
    · simp only at hge hk1
      rcases hg : objGet (bpeB texts n).vocab [c] with _ | v
      · rw [← he, hg, jsOrZero_none]
        omega
      · rw [← he, hg, jsOrZero_some]
        rcases hinv ([c], v) (objGet_mem hg) with ⟨_, hlt⟩ | ⟨hl2, _⟩
        · simp only at hlt
          omega
        · simp at hl2

/-- C8 witness: a concrete emitted id (the id 0 of `'a'`) satisfies both
parts at a concrete corpus and input. -/
theorem c8_witness :
    ((0 = 0 ∨ ∃ c : Char,
        objGet (bpeB ["ab ab ab".toList, "ab cd".toList] 1).vocab [c] = some 0) ∧
      (∀ t j, objGet (bpeB ["ab ab ab".toList, "ab cd".toList] 1).vocab t = some j →
        2 ≤ t.length → j ≠ 0)) :=
  c8_bpe_encode_single_char_ids ["ab ab ab".toList, "ab cd".toList] 1
    "ab".toList 0 (by decide)

/-- C2 witness: the bound evaluated at a concrete corpus. -/
theorem c2_witness :
    4 ≤ (charB ["a".toList]).vocab.length ∧ 4 ≤ (wordB 10 ["a".toList]).vocab.length :=
  c2_char_word_vocab_ge4 ["a".toList] 10

/-- C4 witness: the invariant instantiated at a concrete corpus. -/
theorem c4_witness :
    VocabWF (charB ["ab".toList]).vocab (charB ["ab".toList]).reverseVocab :=
  (c4_char_word_vocab_wf ["ab".toList] 10).1

/-- C10 witness: case-invariance at a concrete corpus and text. -/
theorem c10_witness :
    (wordB 10 ["a b".toList]).encode (lowerL "A b!".toList)
      = (wordB 10 ["a b".toList]).encode "A b!".toList :=
  c10_word_encode_lower_invariant 10 ["a b".toList] "A b!".toList

end Tok
